import Mathlib

/-!
Verification of the Whittle Hurst-exponent estimator of
`src/examples/vcb_whittle_analysis.py`.

The estimator consists of three functions of the source file:

* `fspec_fgn h n` (source lines 19-34): the theoretical spectral density of
  fractional Gaussian noise at the Fourier frequencies `2*pi*(i+1)/n`,
  `i = 0 .. nhalfm-1`, truncating the aliasing sum at 200 terms and
  dividing the resulting vector by `exp(2 * sum(log fspec) / n)`.
* `whittlefunc h gammahat n` (source lines 36-39): the Whittle objective
  `2 * (2*pi/n) * sum(gammahat / gammatheo)`.
* `whittle data` (source lines 41-47): computes the periodogram ordinates
  `gammahat = exp(2*log|FFT(data)[1..nhalfm]|) / (2*pi*n)` and minimises the
  objective over `H` in `[0, 1]` with `scipy.optimize.fminbound`.

The embedding models floating-point numbers as real numbers and `numpy`
arrays as functions `ℕ → ℝ` (respectively `Fin n → ℝ` for the input series)
together with the index range over which the source iterates.  One IEEE
detail is folded into a definition: the source computes the periodogram as
`exp(2*log(tmp))`, which in IEEE arithmetic equals `tmp^2` for every
`tmp ≥ 0` (including `tmp = 0`, via `log 0 = -inf` and `exp (-inf) = 0`),
so `gammahat` is defined with the squared magnitude directly; the
`exp`/`log` form is related to it in the theorem for the periodogram claim.
-/

namespace VCBWhittle

/-- Source line 43 (`nhalfm = (n - 1) // 2` appears at lines 22 and 43):
the number of half-spectrum frequencies. -/
def nhalfm (n : ℕ) : ℕ := (n - 1) / 2

/-- Source line 44, `np.fft.fft(data)`: the discrete Fourier transform
`X_k = sum_j data_j * exp(-2*pi*i*j*k/n)` as computed by numpy. -/
noncomputable def dft (n : ℕ) (data : Fin n → ℝ) (k : ℕ) : ℂ :=
  ∑ j : Fin n,
    (data j : ℂ) *
      Complex.exp (-(2 * (Real.pi : ℂ) * Complex.I * ((j : ℕ) : ℂ) * (k : ℂ)) / (n : ℂ))

/-- Source line 44, `tmp = np.abs(np.fft.fft(data))`: the DFT magnitudes. -/
noncomputable def tmp (n : ℕ) (data : Fin n → ℝ) (k : ℕ) : ℝ :=
  Complex.abs (dft n data k)

/-- Source line 45, `gammahat = np.exp(2 * np.log(tmp[1:nhalfm + 1])) / (2 * np.pi * n)`:
the periodogram ordinate at frequency index `k + 1` (`k = 0 .. nhalfm - 1`);
`exp(2*log x) = x^2` in IEEE arithmetic for every magnitude `x ≥ 0`. -/
noncomputable def gammahat (n : ℕ) (data : Fin n → ℝ) (k : ℕ) : ℝ :=
  tmp n data (k + 1) ^ 2 / (2 * Real.pi * n)

/-- Source line 20, `hhest = -((2 * h) + 1)`. -/
def hhest (h : ℝ) : ℝ := -((2 * h) + 1)

/-- Source line 21, `const = np.sin(np.pi * h) * gamma(-hhest) / np.pi`. -/
noncomputable def fgnConst (h : ℝ) : ℝ :=
  Real.sin (Real.pi * h) * Real.Gamma (-(hhest h)) / Real.pi

/-- Source line 23, `dpl = 2 * np.pi * np.arange(1, nhalfm + 1) / n`:
the `i`-th Fourier frequency `2*pi*(i+1)/n`. -/
noncomputable def dpl (n i : ℕ) : ℝ := 2 * Real.pi * ((i : ℝ) + 1) / n

/-- Source lines 27-28, `fgi = np.abs(dpl[i] + dpfi) ** hhest` and
`fhi = np.abs(dpl[i] - dpfi) ** hhest` with `dpfi = 2 * np.pi * np.arange(200)`:
the `j`-th aliased contribution at frequency `x`. -/
noncomputable def aliasTerm (e x : ℝ) (j : ℕ) : ℝ :=
  |x + 2 * Real.pi * (j : ℝ)| ^ e + |x - 2 * Real.pi * (j : ℝ)| ^ e

/-- Source lines 24-32: the unnormalised spectral density entry
`fspec[i] = (1 - cos(dpl[i])) * const * sum(dpfi)` where `dpfi[j]` is
`aliasTerm` at `j` and the `j = 0` entry is halved (`dpfi[0] /= 2`). -/
noncomputable def fspecRaw (h : ℝ) (n i : ℕ) : ℝ :=
  (1 - Real.cos (dpl n i)) * fgnConst h *
    ∑ j ∈ Finset.range 200,
      (if j = 0 then aliasTerm (hhest h) (dpl n i) j / 2
       else aliasTerm (hhest h) (dpl n i) j)

/-- Source line 33, `fspec = fspec / np.exp(2 * np.sum(np.log(fspec)) / n)`:
the normalised spectral density entry. -/
noncomputable def fspec_fgn (h : ℝ) (n : ℕ) (i : ℕ) : ℝ :=
  fspecRaw h n i /
    Real.exp (2 * (∑ k ∈ Finset.range (nhalfm n), Real.log (fspecRaw h n k)) / n)

/-- Source lines 36-39, `whittlefunc`: the Whittle objective
`2 * (2 * np.pi / n) * np.sum(gammahat / gammatheo)`. -/
noncomputable def whittlefunc (h : ℝ) (g : ℕ → ℝ) (n : ℕ) : ℝ :=
  2 * (2 * Real.pi / n) * ∑ k ∈ Finset.range (nhalfm n), g k / fspec_fgn h n k

/-- Modelled from the spec: `scipy.optimize.fminbound` is external library
code, not part of this repository.  Per spec section 4.3 the call is a
derivative-free bounded scalar minimisation over the closed search interval
which "must always return a value strictly within [0, 1]" for the interval
`[0, 1]`; it is modelled as a choice of a minimiser of `f` on `[a, b]`
(when one exists), clamped into the search interval.  The choice depends
only on the set of minimisers, which is what a comparison-based search
such as Brent's method observes. -/
noncomputable def fminbound (f : ℝ → ℝ) (a b : ℝ) : ℝ :=
  max a (min b
    (Classical.epsilon fun x => x ∈ Set.Icc a b ∧ ∀ y ∈ Set.Icc a b, f x ≤ f y))

/-- Source lines 41-47, `whittle`: the top-level estimator.  It derives the
periodogram `gammahat` from the data and minimises the Whittle objective
over `H ∈ [0, 1]` (`so.fminbound(func, 0, 1)`). -/
noncomputable def whittle (n : ℕ) (data : Fin n → ℝ) : ℝ :=
  fminbound (fun H => whittlefunc H (gammahat n data) n) 0 1

/-! ### General helper lemmas -/

/-- The clamped minimiser always lies in the search interval. -/
theorem fminbound_mem (f : ℝ → ℝ) (a b : ℝ) (hab : a ≤ b) :
    fminbound f a b ∈ Set.Icc a b := by
  unfold fminbound
  constructor
  · exact le_max_left _ _
  · exact max_le hab (min_le_left _ _)

/-- Multiplying the objective by a positive constant does not change the set
of minimisers, hence not the modelled bounded minimiser. -/
theorem fminbound_mul_left (f : ℝ → ℝ) (a b c : ℝ) (hc : 0 < c) :
    fminbound (fun x => c * f x) a b = fminbound f a b := by
  unfold fminbound
  have hset :
      (fun x => x ∈ Set.Icc a b ∧ ∀ y ∈ Set.Icc a b, c * f x ≤ c * f y)
        = fun x => x ∈ Set.Icc a b ∧ ∀ y ∈ Set.Icc a b, f x ≤ f y := by
    funext x
    apply propext
    constructor
    · rintro ⟨hx, hmin⟩
      exact ⟨hx, fun y hy => le_of_mul_le_mul_left (hmin y hy) hc⟩
    · rintro ⟨hx, hmin⟩
      exact ⟨hx, fun y hy => mul_le_mul_of_nonneg_left (hmin y hy) hc.le⟩
  rw [hset]

/-- The Whittle objective is linear in the periodogram vector. -/
theorem whittlefunc_mul (h : ℝ) (g : ℕ → ℝ) (n : ℕ) (c : ℝ) :
    whittlefunc h (fun k => c * g k) n = c * whittlefunc h g n := by
  simp only [whittlefunc, mul_div_assoc, ← Finset.mul_sum]
  ring

/-- For a positive real, the source's `exp(2*log x)` equals `x^2`. -/
theorem exp_two_log (x : ℝ) (hx : 0 < x) : Real.exp (2 * Real.log x) = x ^ 2 := by
  rw [two_mul, Real.exp_add, Real.exp_log hx, sq]

/-- The DFT is homogeneous in the data. -/
theorem dft_smul (n : ℕ) (data : Fin n → ℝ) (c : ℝ) (k : ℕ) :
    dft n (fun i => c * data i) k = (c : ℂ) * dft n data k := by
  unfold dft
  rw [Finset.mul_sum]
  refine Finset.sum_congr rfl fun j _ => ?_
  push_cast
  ring

/-- The DFT magnitudes scale linearly under scaling by a nonnegative constant. -/
theorem tmp_smul (n : ℕ) (data : Fin n → ℝ) (c : ℝ) (hc : 0 ≤ c) (k : ℕ) :
    tmp n (fun i => c * data i) k = c * tmp n data k := by
  unfold tmp
  rw [dft_smul, map_mul, Complex.abs_ofReal, abs_of_nonneg hc]

/-- The periodogram scales by `c^2` when the data is scaled by `c ≥ 0`. -/
theorem gammahat_smul (n : ℕ) (data : Fin n → ℝ) (c : ℝ) (hc : 0 ≤ c) (k : ℕ) :
    gammahat n (fun i => c * data i) k = c ^ 2 * gammahat n data k := by
  unfold gammahat
  rw [tmp_smul n data c hc, mul_pow, mul_div_assoc]

/-- The DFT of a constant series vanishes at every index `0 < k < n`
(geometric sum of the `n`-th roots of unity). -/
theorem dft_const (n k : ℕ) (c : ℝ) (hk0 : 0 < k) (hkn : k < n) :
    dft n (fun _ => c) k = 0 := by
  have hnpos : 0 < n := lt_trans hk0 hkn
  have hn0 : (n : ℂ) ≠ 0 := by exact_mod_cast hnpos.ne'
  have h2πI : (2 * (Real.pi : ℂ) * Complex.I) ≠ 0 := by
    simp [Real.pi_ne_zero, Complex.I_ne_zero]
  set w : ℂ := -(2 * (Real.pi : ℂ) * Complex.I * (k : ℂ)) / (n : ℂ) with hw
  have hexp : ∀ j : Fin n,
      Complex.exp (-(2 * (Real.pi : ℂ) * Complex.I * ((j : ℕ) : ℂ) * (k : ℂ)) / (n : ℂ))
        = Complex.exp w ^ (j : ℕ) := by
    intro j
    rw [← Complex.exp_nat_mul]
    congr 1
    rw [hw]
    ring
  have hwpow : Complex.exp w ^ n = 1 := by
    rw [← Complex.exp_nat_mul]
    have : (n : ℂ) * w = ((-(k : ℤ) : ℤ) : ℂ) * (2 * (Real.pi : ℂ) * Complex.I) := by
      rw [hw]
      field_simp
      ring
    rw [this, Complex.exp_int_mul_two_pi_mul_I]
  have hw1 : Complex.exp w ≠ 1 := by
    intro h1
    rw [Complex.exp_eq_one_iff] at h1
    obtain ⟨m, hm⟩ := h1
    rw [hw] at hm
    have hm' : -(2 * (Real.pi : ℂ) * Complex.I * (k : ℂ))
        = (m : ℂ) * (2 * (Real.pi : ℂ) * Complex.I) * (n : ℂ) := by
      field_simp at hm
      linear_combination hm
    have key : (2 * (Real.pi : ℂ) * Complex.I) * (-(k : ℂ))
        = (2 * (Real.pi : ℂ) * Complex.I) * ((m : ℂ) * (n : ℂ)) := by
      linear_combination hm'
    have hke : (-(k : ℤ) : ℂ) = ((m * n : ℤ) : ℂ) := by
      push_cast
      exact mul_left_cancel₀ h2πI key
    have hkz : -(k : ℤ) = m * n := by exact_mod_cast hke
    have hdvd : (n : ℤ) ∣ (k : ℤ) := ⟨-m, by linarith⟩
    have : n ∣ k := Int.natCast_dvd_natCast.mp hdvd
    exact absurd (Nat.le_of_dvd hk0 this) (not_le.mpr hkn)
  unfold dft
  calc (∑ j : Fin n, ((fun _ : Fin n => c) j : ℂ) *
          Complex.exp (-(2 * (Real.pi : ℂ) * Complex.I * ((j : ℕ) : ℂ) * (k : ℂ)) / (n : ℂ)))
      = (c : ℂ) * ∑ j : Fin n, Complex.exp w ^ (j : ℕ) := by
        rw [Finset.mul_sum]
        exact Finset.sum_congr rfl fun j _ => by rw [hexp j]
    _ = (c : ℂ) * ∑ j ∈ Finset.range n, Complex.exp w ^ j := by
        rw [Fin.sum_univ_eq_sum_range (fun j => Complex.exp w ^ j) n]
    _ = 0 := by
        rw [geom_sum_eq hw1, hwpow, sub_self, zero_div, mul_zero]

/-- Each aliased contribution is nonnegative. -/
theorem aliasTerm_nonneg (e x : ℝ) (j : ℕ) : 0 ≤ aliasTerm e x j :=
  add_nonneg (Real.rpow_nonneg (abs_nonneg _) _) (Real.rpow_nonneg (abs_nonneg _) _)

/-- The un-aliased (`j = 0`) contribution before halving. -/
theorem aliasTerm_zero (e x : ℝ) : aliasTerm e x 0 = 2 * |x| ^ e := by
  simp [aliasTerm, two_mul]

/-- The unnormalised spectral density is strictly positive at every genuine
half-spectrum frequency for `H` strictly inside `(0, 1)`. -/
theorem fspecRaw_pos (h : ℝ) (n i : ℕ) (h0 : 0 < h) (h1 : h < 1)
    (hi : 2 * (i + 1) < n) : 0 < fspecRaw h n i := by
  have hπ := Real.pi_pos
  have hnpos : 0 < n := by omega
  have hn : (0 : ℝ) < n := by exact_mod_cast hnpos
  have hdpl0 : 0 < dpl n i := by unfold dpl; positivity
  have hdpl_lt : dpl n i < Real.pi := by
    unfold dpl
    rw [div_lt_iff₀ hn]
    have h2 : (2 : ℝ) * ((i : ℝ) + 1) < (n : ℝ) := by exact_mod_cast hi
    nlinarith
  have hcos : Real.cos (dpl n i) < 1 := by
    have hc := Real.cos_lt_cos_of_nonneg_of_le_pi (le_refl (0 : ℝ)) hdpl_lt.le hdpl0
    simpa using hc
  have hconst : 0 < fgnConst h := by
    unfold fgnConst
    have hs : 0 < Real.sin (Real.pi * h) :=
      Real.sin_pos_of_pos_of_lt_pi (by positivity) (by nlinarith)
    have hg : 0 < Real.Gamma (-(hhest h)) := by
      apply Real.Gamma_pos_of_pos
      unfold hhest
      rw [neg_neg]
      linarith
    exact div_pos (mul_pos hs hg) hπ
  have hsum : 0 < ∑ j ∈ Finset.range 200,
      (if j = 0 then aliasTerm (hhest h) (dpl n i) j / 2
       else aliasTerm (hhest h) (dpl n i) j) := by
    apply Finset.sum_pos'
    · intro j _
      split
      · exact div_nonneg (aliasTerm_nonneg _ _ _) (by norm_num)
      · exact aliasTerm_nonneg _ _ _
    · refine ⟨0, Finset.mem_range.mpr (by norm_num), ?_⟩
      rw [if_pos rfl, aliasTerm_zero]
      have hp : 0 < |dpl n i| ^ (hhest h) :=
        Real.rpow_pos_of_pos (abs_pos.mpr hdpl0.ne') _
      linarith
  exact mul_pos (mul_pos (by linarith) hconst) hsum

/-- The periodogram of a constant series vanishes at every genuine
half-spectrum index. -/
theorem gammahat_const (n : ℕ) (c : ℝ) (k : ℕ) (hk : k + 1 < n) :
    gammahat n (fun _ => c) k = 0 := by
  unfold gammahat tmp
  rw [dft_const n (k + 1) c (Nat.succ_pos k) hk]
  simp

/-- The DFT of the length-4 impulse `[1, 0, 0, 0]` at index 1. -/
theorem dft_impulse_four : dft 4 ![1, 0, 0, 0] 1 = 1 := by
  unfold dft
  rw [Fin.sum_univ_four]
  norm_num [Matrix.cons_val_zero, Matrix.cons_val_one, Matrix.head_cons]

/-- The DFT magnitude of the length-4 impulse at index 1. -/
theorem tmp_impulse_four : tmp 4 ![1, 0, 0, 0] 1 = 1 := by
  unfold tmp
  rw [dft_impulse_four]
  simp

/-! ### Claim theorems -/

/-- C1: for every real input of length `n ≥ 4` with non-zero variance
(witnessed by two unequal entries), the estimate returned by `whittle`
satisfies `0 ≤ H ≤ 1`.  The range invariant comes entirely from the
bounded search domain of the minimiser. -/
theorem whittle_mem_unit_interval (n : ℕ) (data : Fin n → ℝ) (i j : Fin n)
    (hn : 4 ≤ n) (hvar : data i ≠ data j) :
    whittle n data ∈ Set.Icc (0 : ℝ) 1 :=
  fminbound_mem _ 0 1 zero_le_one

/-- Witness for C1 at the alternating series `[1, -1, 1, -1]`. -/
theorem whittle_mem_unit_interval_witness :
    4 ≤ 4 ∧ (![1, -1, 1, -1] : Fin 4 → ℝ) 0 ≠ (![1, -1, 1, -1] : Fin 4 → ℝ) 1 ∧
      whittle 4 ![1, -1, 1, -1] ∈ Set.Icc (0 : ℝ) 1 := by
  have hne : (![1, -1, 1, -1] : Fin 4 → ℝ) 0 ≠ (![1, -1, 1, -1] : Fin 4 → ℝ) 1 := by
    norm_num [Matrix.cons_val_zero, Matrix.cons_val_one, Matrix.head_cons]
  exact ⟨le_refl 4, hne, whittle_mem_unit_interval 4 ![1, -1, 1, -1] 0 1 (le_refl 4) hne⟩

/-- C2 counterexample: on the length-3 input `[1, 2, 4]` the estimator does
not signal an invalid-input error; it is a total function whose result is a
numeric value in `[0, 1]` (the source performs no length validation). -/
theorem whittle_length_three_value :
    whittle 3 ![1, 2, 4] ∈ Set.Icc (0 : ℝ) 1 :=
  fminbound_mem _ 0 1 zero_le_one

/-- C2 amended: for every nonempty input of length `n < 4` the estimator
performs no validation and returns a numeric value in `[0, 1]`. -/
theorem whittle_short_input (n : ℕ) (data : Fin n → ℝ) (h1 : 1 ≤ n) (h4 : n < 4) :
    whittle n data ∈ Set.Icc (0 : ℝ) 1 :=
  fminbound_mem _ 0 1 zero_le_one

/-- Witness for the amended C2 at the length-3 input `[0, 1, 5]`. -/
theorem whittle_short_input_witness :
    1 ≤ 3 ∧ 3 < 4 ∧ whittle 3 ![0, 1, 5] ∈ Set.Icc (0 : ℝ) 1 :=
  ⟨by norm_num, by norm_num, whittle_short_input 3 ![0, 1, 5] (by norm_num) (by norm_num)⟩

/-- C3 counterexample: on the constant series `[2, 2, 2, 2]` (zero variance,
length 4) the estimator does not signal a degenerate-series error: the
periodogram ordinate is zero and the result is a numeric value in `[0, 1]`. -/
theorem whittle_constant_four_value :
    gammahat 4 (fun _ => (2 : ℝ)) 0 = 0 ∧
      whittle 4 (fun _ => (2 : ℝ)) ∈ Set.Icc (0 : ℝ) 1 := by
  refine ⟨gammahat_const 4 2 0 (by norm_num), fminbound_mem _ 0 1 zero_le_one⟩

/-- C3 amended: for every constant series of length `n ≥ 4` the periodogram
ordinates are all zero, the Whittle objective is identically zero, and the
estimator returns a numeric value in `[0, 1]`; no error is signalled. -/
theorem whittle_constant_amended (n : ℕ) (c H : ℝ) (k : ℕ)
    (hn : 4 ≤ n) (hk : k < nhalfm n) :
    gammahat n (fun _ => c) k = 0 ∧
      whittlefunc H (gammahat n (fun _ => c)) n = 0 ∧
      whittle n (fun _ => c) ∈ Set.Icc (0 : ℝ) 1 := by
  have hkn : ∀ m, m < nhalfm n → m + 1 < n := by
    intro m hm
    have hm' : m < (n - 1) / 2 := hm
    omega
  refine ⟨gammahat_const n c k (hkn k hk), ?_, fminbound_mem _ 0 1 zero_le_one⟩
  unfold whittlefunc
  rw [Finset.sum_eq_zero, mul_zero]
  intro m hm
  rw [gammahat_const n c m (hkn m (Finset.mem_range.mp hm)), zero_div]

/-- Witness for the amended C3 at the constant series `5` of length 4. -/
theorem whittle_constant_amended_witness :
    4 ≤ 4 ∧ 0 < nhalfm 4 ∧
      (gammahat 4 (fun _ => (5 : ℝ)) 0 = 0 ∧
        whittlefunc (1 / 2) (gammahat 4 (fun _ => (5 : ℝ))) 4 = 0 ∧
        whittle 4 (fun _ => (5 : ℝ)) ∈ Set.Icc (0 : ℝ) 1) :=
  ⟨le_refl 4, by norm_num [nhalfm],
    whittle_constant_amended 4 5 (1 / 2) 0 (le_refl 4) (by norm_num [nhalfm])⟩

/-- C4: the Whittle objective equals `(4*pi/n)` times the sum of the
elementwise ratios of the periodogram to the theoretical density. -/
theorem whittlefunc_formula (H : ℝ) (g : ℕ → ℝ) (n : ℕ) (hn : 4 ≤ n) :
    whittlefunc H g n
      = 4 * Real.pi / n * ∑ k ∈ Finset.range (nhalfm n), g k / fspec_fgn H n k := by
  unfold whittlefunc
  ring

/-- Witness for C4 at `H = 1/2`, the all-ones periodogram and `n = 4`. -/
theorem whittlefunc_formula_witness :
    4 ≤ 4 ∧ whittlefunc (1 / 2) (fun _ => (1 : ℝ)) 4
      = 4 * Real.pi / (4 : ℕ) *
          ∑ k ∈ Finset.range (nhalfm 4), (fun _ => (1 : ℝ)) k / fspec_fgn (1 / 2) 4 k :=
  ⟨le_refl 4, whittlefunc_formula (1 / 2) (fun _ => 1) 4 (le_refl 4)⟩

/-- C6: scaling a valid input series by a positive constant does not change
the estimate: the periodogram scales by `c^2`, the objective is linear in
the periodogram, and a positive rescaling of the objective has the same
minimisers over `[0, 1]`. -/
theorem whittle_scale_invariant (n : ℕ) (data : Fin n → ℝ) (c : ℝ) (i j : Fin n)
    (hn : 4 ≤ n) (hvar : data i ≠ data j) (hc : 0 < c) :
    whittle n (fun m => c * data m) = whittle n data := by
  unfold whittle
  have hγ : gammahat n (fun m => c * data m) = fun k => c ^ 2 * gammahat n data k := by
    funext k
    exact gammahat_smul n data c hc.le k
  have hg : (fun H => whittlefunc H (gammahat n fun m => c * data m) n)
      = fun H => c ^ 2 * whittlefunc H (gammahat n data) n := by
    funext H
    rw [hγ, whittlefunc_mul]
  rw [hg]
  exact fminbound_mul_left (fun H => whittlefunc H (gammahat n data) n) 0 1 (c ^ 2)
    (by positivity)

/-- Witness for C6 at the series `[3, 1, 1, 1]` and scale `c = 2`. -/
theorem whittle_scale_invariant_witness :
    4 ≤ 4 ∧ (![3, 1, 1, 1] : Fin 4 → ℝ) 0 ≠ (![3, 1, 1, 1] : Fin 4 → ℝ) 1 ∧ (0 : ℝ) < 2 ∧
      whittle 4 (fun m => 2 * (![3, 1, 1, 1] : Fin 4 → ℝ) m) = whittle 4 ![3, 1, 1, 1] := by
  have hne : (![3, 1, 1, 1] : Fin 4 → ℝ) 0 ≠ (![3, 1, 1, 1] : Fin 4 → ℝ) 1 := by
    norm_num [Matrix.cons_val_zero, Matrix.cons_val_one, Matrix.head_cons]
  exact ⟨le_refl 4, hne, by norm_num,
    whittle_scale_invariant 4 ![3, 1, 1, 1] 2 0 1 (le_refl 4) hne (by norm_num)⟩

/-- C7: the estimator is a pure function of its input: two calls on equal
inputs return equal results.  The source `whittle` reads no global mutable
state and uses no randomness, so the embedding is a plain function. -/
theorem whittle_deterministic (n : ℕ) (s t : Fin n → ℝ) (h : s = t) :
    whittle n s = whittle n t := by
  rw [h]

/-- Witness for C7 at the series `[1, 2, 3, 4]`. -/
theorem whittle_deterministic_witness :
    (![1, 2, 3, 4] : Fin 4 → ℝ) = ![1, 2, 3, 4] ∧
      whittle 4 ![1, 2, 3, 4] = whittle 4 ![1, 2, 3, 4] :=
  ⟨rfl, whittle_deterministic 4 ![1, 2, 3, 4] ![1, 2, 3, 4] rfl⟩

/-- C8: the periodogram ordinates are exactly `|FFT(data)[k]|^2 / (2*pi*n)`
for `k = 1 .. (n-1)/2`: the stored value at offset `k` is the squared DFT
magnitude at index `k + 1` (the DC term `k = 0` is excluded and the index
range stops at `(n-1)/2`, dropping the Nyquist term for even `n`), and for a
non-zero magnitude the source's `exp(2*log|FFT|)` form equals the squared
magnitude. -/
theorem gammahat_periodogram (n : ℕ) (data : Fin n → ℝ) (k : ℕ)
    (hk : k < nhalfm n) (hpos : 0 < tmp n data (k + 1)) :
    gammahat n data k
        = Real.exp (2 * Real.log (tmp n data (k + 1))) / (2 * Real.pi * n) ∧
      gammahat n data k = Complex.abs (dft n data (k + 1)) ^ 2 / (2 * Real.pi * n) ∧
      1 ≤ k + 1 ∧ k + 1 ≤ (n - 1) / 2 := by
  refine ⟨?_, rfl, Nat.le_add_left 1 k, ?_⟩
  · rw [exp_two_log _ hpos]
    rfl
  · have hk' : k < (n - 1) / 2 := hk
    omega

/-- Witness for C8 at the impulse `[1, 0, 0, 0]`, whose DFT magnitude at
index 1 is 1. -/
theorem gammahat_periodogram_witness :
    0 < nhalfm 4 ∧ 0 < tmp 4 ![1, 0, 0, 0] 1 ∧
      (gammahat 4 ![1, 0, 0, 0] 0
          = Real.exp (2 * Real.log (tmp 4 ![1, 0, 0, 0] (0 + 1))) / (2 * Real.pi * (4 : ℕ)) ∧
        gammahat 4 ![1, 0, 0, 0] 0
          = Complex.abs (dft 4 ![1, 0, 0, 0] (0 + 1)) ^ 2 / (2 * Real.pi * (4 : ℕ)) ∧
        1 ≤ 0 + 1 ∧ 0 + 1 ≤ (4 - 1) / 2) := by
  have hpos : 0 < tmp 4 ![1, 0, 0, 0] 1 := by
    rw [tmp_impulse_four]
    norm_num
  exact ⟨by norm_num [nhalfm], hpos,
    gammahat_periodogram 4 ![1, 0, 0, 0] 0 (by norm_num [nhalfm]) hpos⟩

/-- C9 (code bug evidence): at both boundary values `H = 0` and `H = 1` the
factor `sin(pi*H) * Gamma(2H+1) / pi` vanishes in exact arithmetic, so the
unnormalised spectrum is identically zero and the normalised spectrum is the
quotient of zero by `exp(2 * sum(log 0) / n)`.  In the source's IEEE
arithmetic, at `H = 0` this is `0/exp(-inf) = 0/0 = NaN` for every entry
(at `H = 1` floating-point `sin(pi)` is merely approximately zero, so the
code happens to return finite values there). -/
theorem fspec_fgn_boundary (n i : ℕ) :
    fspecRaw 0 n i = 0 ∧ fspecRaw 1 n i = 0 ∧
      fspec_fgn 0 n i = 0 ∧ fspec_fgn 1 n i = 0 := by
  have h0 : fgnConst 0 = 0 := by
    unfold fgnConst
    rw [mul_zero, Real.sin_zero]
    ring
  have h1 : fgnConst 1 = 0 := by
    unfold fgnConst
    rw [mul_one, Real.sin_pi]
    ring
  have hr0 : ∀ m, fspecRaw 0 n m = 0 := by
    intro m
    unfold fspecRaw
    rw [h0]
    ring
  have hr1 : ∀ m, fspecRaw 1 n m = 0 := by
    intro m
    unfold fspecRaw
    rw [h1]
    ring
  refine ⟨hr0 i, hr1 i, ?_, ?_⟩
  · unfold fspec_fgn
    rw [hr0 i, zero_div]
  · unfold fspec_fgn
    rw [hr1 i, zero_div]

/-- C10: the Whittle objective is positively homogeneous of degree 1 in the
periodogram vector. -/
theorem whittlefunc_homogeneous (H : ℝ) (g : ℕ → ℝ) (n : ℕ) (c : ℝ)
    (hn : 4 ≤ n) (hc : 0 ≤ c) :
    whittlefunc H (fun k => c * g k) n = c * whittlefunc H g n :=
  whittlefunc_mul H g n c

/-- Witness for C10 at `H = 1/2`, the all-ones periodogram, `n = 4`, `c = 3`. -/
theorem whittlefunc_homogeneous_witness :
    4 ≤ 4 ∧ (0 : ℝ) ≤ 3 ∧
      whittlefunc (1 / 2) (fun k => 3 * (fun _ => (1 : ℝ)) k) 4
        = 3 * whittlefunc (1 / 2) (fun _ => (1 : ℝ)) 4 :=
  ⟨le_refl 4, by norm_num,
    whittlefunc_homogeneous (1 / 2) (fun _ => 1) 4 3 (le_refl 4) (by norm_num)⟩

/-! ### Evaluation of the spectral density at `H = 1/2`, `n = 4`
(used to refute the unit-geometric-mean claim) -/

/-- At `n = 4` there is a single half-spectrum frequency. -/
theorem nhalfm_four : nhalfm 4 = 1 := rfl

/-- `hhest` at `H = 1/2`. -/
theorem hhest_half : hhest (1 / 2) = -2 := by
  unfold hhest
  norm_num

/-- The trigonometric/gamma constant at `H = 1/2` is `1/pi`. -/
theorem fgnConst_half : fgnConst (1 / 2) = 1 / Real.pi := by
  unfold fgnConst
  rw [hhest_half, neg_neg, Real.Gamma_two, mul_one_div, Real.sin_pi_div_two]
  norm_num

/-- The first Fourier frequency for `n = 4` is `pi/2`. -/
theorem dpl_four_zero : dpl 4 0 = Real.pi / 2 := by
  unfold dpl
  push_cast
  ring

/-- A real power with exponent `-2` of a positive base is an inverse square. -/
theorem rpow_neg_two_eq (y : ℝ) (hy : 0 < y) : y ^ (-2 : ℝ) = (y ^ 2)⁻¹ := by
  rw [show (-2 : ℝ) = -(2 : ℝ) by norm_num, Real.rpow_neg hy.le, Real.rpow_two]

/-- Telescoping bound for a pair of inverse squares: for `x ≥ 1`,
`(2x+1/2)^-2 + (2x-1/2)^-2 ≤ 2/(4x-3) - 2/(4x+1)`. -/
theorem inv_sq_sum_bound (x : ℝ) (hx : 1 ≤ x) :
    ((2 * x + 1 / 2) ^ 2)⁻¹ + ((2 * x - 1 / 2) ^ 2)⁻¹
      ≤ 2 / (4 * x - 3) - 2 / (4 * x + 1) := by
  have h32 : (0 : ℝ) < 2 * x - 3 / 2 := by linarith
  have h12 : (0 : ℝ) < 2 * x - 1 / 2 := by linarith
  have h12' : (0 : ℝ) < 2 * x + 1 / 2 := by linarith
  have hA : ((2 * x - 1 / 2) ^ 2)⁻¹ ≤ ((2 * x - 3 / 2) * (2 * x - 1 / 2))⁻¹ :=
    inv_anti₀ (by nlinarith) (by nlinarith)
  have hB : ((2 * x + 1 / 2) ^ 2)⁻¹ ≤ ((2 * x - 1 / 2) * (2 * x + 1 / 2))⁻¹ :=
    inv_anti₀ (by nlinarith) (by nlinarith)
  have e32 : (2 * x - 3 / 2 : ℝ) ≠ 0 := h32.ne'
  have e12 : (2 * x - 1 / 2 : ℝ) ≠ 0 := h12.ne'
  have e12' : (2 * x + 1 / 2 : ℝ) ≠ 0 := h12'.ne'
  have e43 : (4 * x - 3 : ℝ) ≠ 0 := (show (0 : ℝ) < 4 * x - 3 by linarith).ne'
  have e41 : (4 * x + 1 : ℝ) ≠ 0 := (show (0 : ℝ) < 4 * x + 1 by linarith).ne'
  have q1 : ((2 * x - 1 / 2) * (2 * x + 1 / 2))⁻¹
      = 1 / (2 * x - 1 / 2) - 1 / (2 * x + 1 / 2) := by
    rw [div_sub_div _ _ e12 e12',
      show (1 * (2 * x + 1 / 2) - (2 * x - 1 / 2) * 1 : ℝ) = 1 by ring]
    exact (one_div _).symm
  have q2 : ((2 * x - 3 / 2) * (2 * x - 1 / 2))⁻¹
      = 1 / (2 * x - 3 / 2) - 1 / (2 * x - 1 / 2) := by
    rw [div_sub_div _ _ e32 e12,
      show (1 * (2 * x - 1 / 2) - (2 * x - 3 / 2) * 1 : ℝ) = 1 by ring]
    exact (one_div _).symm
  have r1 : 1 / (2 * x - 3 / 2) = 2 / (4 * x - 3) := by
    rw [div_eq_div_iff e32 e43]
    ring
  have r2 : 1 / (2 * x + 1 / 2) = 2 / (4 * x + 1) := by
    rw [div_eq_div_iff e12' e41]
    ring
  linarith

/-- The `j`-th aliased contribution at frequency `pi/2` with exponent `-2`
is bounded by a telescoping difference, scaled by `1/pi^2`. -/
theorem aliasTerm_half_bound (j : ℕ) (hj : 1 ≤ j) :
    aliasTerm (-2) (Real.pi / 2) j
      ≤ (2 / (4 * (j : ℝ) - 3) - 2 / (4 * (j : ℝ) + 1)) / Real.pi ^ 2 := by
  have hπ := Real.pi_pos
  have hx : (1 : ℝ) ≤ (j : ℝ) := by exact_mod_cast hj
  have habs1 : |Real.pi / 2 + 2 * Real.pi * (j : ℝ)| = Real.pi * (2 * (j : ℝ) + 1 / 2) := by
    rw [abs_of_pos (by nlinarith)]
    ring
  have habs2 : |Real.pi / 2 - 2 * Real.pi * (j : ℝ)| = Real.pi * (2 * (j : ℝ) - 1 / 2) := by
    rw [abs_of_neg (by nlinarith)]
    ring
  unfold aliasTerm
  rw [habs1, habs2, rpow_neg_two_eq _ (by nlinarith), rpow_neg_two_eq _ (by nlinarith)]
  have hcore := inv_sq_sum_bound (j : ℝ) hx
  calc ((Real.pi * (2 * (j : ℝ) + 1 / 2)) ^ 2)⁻¹ + ((Real.pi * (2 * (j : ℝ) - 1 / 2)) ^ 2)⁻¹
      = (Real.pi ^ 2)⁻¹ *
          (((2 * (j : ℝ) + 1 / 2) ^ 2)⁻¹ + ((2 * (j : ℝ) - 1 / 2) ^ 2)⁻¹) := by
        rw [mul_pow, mul_pow, mul_inv, mul_inv]
        ring
    _ ≤ (Real.pi ^ 2)⁻¹ * (2 / (4 * (j : ℝ) - 3) - 2 / (4 * (j : ℝ) + 1)) :=
        mul_le_mul_of_nonneg_left hcore (by positivity)
    _ = (2 / (4 * (j : ℝ) - 3) - 2 / (4 * (j : ℝ) + 1)) / Real.pi ^ 2 := by
        ring

/-- The aliasing tail (terms `j = 1 .. 199`) at frequency `pi/2` with
exponent `-2` sums to at most `2/pi^2`. -/
theorem aliasSum_half_bound :
    ∑ j ∈ Finset.Ico 1 200, aliasTerm (-2) (Real.pi / 2) j ≤ 2 / Real.pi ^ 2 := by
  have hπ := Real.pi_pos
  have hstep : ∑ j ∈ Finset.Ico 1 200, aliasTerm (-2) (Real.pi / 2) j
      ≤ ∑ j ∈ Finset.Ico (1 : ℕ) 200,
          (2 / (4 * (j : ℝ) - 3) - 2 / (4 * (j : ℝ) + 1)) / Real.pi ^ 2 :=
    Finset.sum_le_sum fun j hj => aliasTerm_half_bound j (Finset.mem_Ico.mp hj).1
  have htel : ∑ j ∈ Finset.Ico (1 : ℕ) 200, (2 / (4 * (j : ℝ) - 3) - 2 / (4 * (j : ℝ) + 1))
      = 2 / 1 - 2 / 797 := by
    rw [Finset.sum_Ico_eq_sum_range]
    have hsummand : ∀ i ∈ Finset.range (200 - 1),
        2 / (4 * ((1 + i : ℕ) : ℝ) - 3) - 2 / (4 * ((1 + i : ℕ) : ℝ) + 1)
          = 2 / (4 * (i : ℝ) + 1) - 2 / (4 * ((i + 1 : ℕ) : ℝ) + 1) := by
      intro i _
      push_cast
      ring_nf
    rw [Finset.sum_congr rfl hsummand,
      Finset.sum_range_sub' (fun m => 2 / (4 * (m : ℝ) + 1)) (200 - 1)]
    norm_num
  have hdiv : ∑ j ∈ Finset.Ico (1 : ℕ) 200,
      (2 / (4 * (j : ℝ) - 3) - 2 / (4 * (j : ℝ) + 1)) / Real.pi ^ 2
        = (2 / 1 - 2 / 797) / Real.pi ^ 2 := by
    rw [← Finset.sum_div, htel]
  rw [hdiv] at hstep
  refine le_trans hstep ?_
  gcongr
  norm_num

/-- The unnormalised spectral density at `H = 1/2`, `n = 4` is at most
`6/pi^3` (in particular below 1, so its log is negative). -/
theorem fspecRaw_half_four_le : fspecRaw (1 / 2) 4 0 ≤ 6 / Real.pi ^ 3 := by
  have hπ := Real.pi_pos
  unfold fspecRaw
  rw [dpl_four_zero, Real.cos_pi_div_two, fgnConst_half, hhest_half]
  have hsum : ∑ j ∈ Finset.range 200,
      (if j = 0 then aliasTerm (-2) (Real.pi / 2) j / 2 else aliasTerm (-2) (Real.pi / 2) j)
        ≤ 6 / Real.pi ^ 2 := by
    rw [Finset.sum_range_succ' _ (200 - 1)]
    have hshift : ∑ i ∈ Finset.range (200 - 1),
        (if i + 1 = 0 then aliasTerm (-2) (Real.pi / 2) (i + 1) / 2
         else aliasTerm (-2) (Real.pi / 2) (i + 1))
          = ∑ j ∈ Finset.Ico (1 : ℕ) 200, aliasTerm (-2) (Real.pi / 2) j := by
      rw [Finset.sum_Ico_eq_sum_range]
      refine Finset.sum_congr rfl fun i _ => ?_
      rw [if_neg (Nat.succ_ne_zero i), Nat.add_comm 1 i]
    have hzero : (if (0 : ℕ) = 0 then aliasTerm (-2) (Real.pi / 2) 0 / 2
        else aliasTerm (-2) (Real.pi / 2) 0) = 4 / Real.pi ^ 2 := by
      rw [if_pos rfl, aliasTerm_zero, abs_of_pos (by positivity),
        rpow_neg_two_eq _ (by positivity), div_pow, inv_div]
      field_simp
      ring
    rw [hshift, hzero]
    have := aliasSum_half_bound
    rw [show (6 / Real.pi ^ 2 : ℝ) = 2 / Real.pi ^ 2 + 4 / Real.pi ^ 2 by ring]
    exact add_le_add this (le_refl _)
  calc (1 - 0) * (1 / Real.pi) * ∑ j ∈ Finset.range 200,
        (if j = 0 then aliasTerm (-2) (Real.pi / 2) j / 2 else aliasTerm (-2) (Real.pi / 2) j)
      ≤ (1 - 0) * (1 / Real.pi) * (6 / Real.pi ^ 2) := by
        have h1π : (0 : ℝ) ≤ (1 - 0) * (1 / Real.pi) := by positivity
        exact mul_le_mul_of_nonneg_left hsum h1π
    _ = 6 / Real.pi ^ 3 := by
        field_simp
        ring

/-- The unnormalised spectral density at `H = 1/2`, `n = 4` is positive. -/
theorem fspecRaw_half_four_pos : 0 < fspecRaw (1 / 2) 4 0 :=
  fspecRaw_pos (1 / 2) 4 0 (by norm_num) (by norm_num) (by norm_num)

/-- C5 counterexample: at `H = 1/2` and `n = 4` the arithmetic mean of the
logarithms of the entries of `fspec_fgn` is not zero, i.e. the returned
vector does not have unit geometric mean.  (The source divides the log-sum
by `n`, not by `nhalfm`, before exponentiating.) -/
theorem fspec_fgn_mean_log_ne_zero :
    (∑ i ∈ Finset.range (nhalfm 4), Real.log (fspec_fgn (1 / 2) 4 i)) / (nhalfm 4 : ℝ)
      ≠ 0 := by
  have hpos := fspecRaw_half_four_pos
  have hlt1 : fspecRaw (1 / 2) 4 0 < 1 := by
    refine lt_of_le_of_lt fspecRaw_half_four_le ?_
    have h3 : (3 : ℝ) < Real.pi := Real.pi_gt_three
    have h9 : (9 : ℝ) < Real.pi ^ 2 := by nlinarith
    have hπ3 : (27 : ℝ) < Real.pi ^ 3 := by nlinarith
    rw [div_lt_one (by positivity)]
    linarith
  have hlog : Real.log (fspecRaw (1 / 2) 4 0) < 0 := Real.log_neg hpos hlt1
  have hnh : nhalfm 4 = 1 := rfl
  rw [hnh, Finset.sum_range_one]
  have hval : Real.log (fspec_fgn (1 / 2) 4 0) = Real.log (fspecRaw (1 / 2) 4 0) / 2 := by
    unfold fspec_fgn
    rw [hnh, Finset.sum_range_one, Real.log_div hpos.ne' (Real.exp_ne_zero _), Real.log_exp]
    push_cast
    ring
  rw [hval]
  simp only [Nat.cast_one, div_one]
  intro hc
  linarith

/-- C5 amended: the source rescales the raw spectrum by `exp(2*S/n)` where
`S` is the log-sum over the `nhalfm` entries; consequently the log-sum of
the returned vector equals `(1 - 2*nhalfm/n) * S`, which vanishes only when
`S` itself does — the vector has unit geometric mean only in that special
case, not in general. -/
theorem fspec_fgn_log_sum (h : ℝ) (n : ℕ) (h0 : 0 < h) (h1 : h < 1) (hn : 4 ≤ n) :
    ∑ i ∈ Finset.range (nhalfm n), Real.log (fspec_fgn h n i)
      = (1 - 2 * (nhalfm n : ℝ) / n) *
          ∑ i ∈ Finset.range (nhalfm n), Real.log (fspecRaw h n i) := by
  have hterm : ∀ i ∈ Finset.range (nhalfm n),
      Real.log (fspec_fgn h n i)
        = Real.log (fspecRaw h n i)
            - 2 * (∑ k ∈ Finset.range (nhalfm n), Real.log (fspecRaw h n k)) / n := by
    intro i hi
    have hi' : i < (n - 1) / 2 := Finset.mem_range.mp hi
    have hipos : 0 < fspecRaw h n i := fspecRaw_pos h n i h0 h1 (by omega)
    unfold fspec_fgn
    rw [Real.log_div hipos.ne' (Real.exp_ne_zero _), Real.log_exp]
  rw [Finset.sum_congr rfl hterm, Finset.sum_sub_distrib, Finset.sum_const,
    Finset.card_range, nsmul_eq_mul]
  ring

/-- Witness for the amended C5 at `H = 1/2`, `n = 4`. -/
theorem fspec_fgn_log_sum_witness :
    (0 : ℝ) < 1 / 2 ∧ (1 / 2 : ℝ) < 1 ∧ 4 ≤ 4 ∧
      ∑ i ∈ Finset.range (nhalfm 4), Real.log (fspec_fgn (1 / 2) 4 i)
        = (1 - 2 * (nhalfm 4 : ℝ) / (4 : ℕ)) *
            ∑ i ∈ Finset.range (nhalfm 4), Real.log (fspecRaw (1 / 2) 4 i) :=
  ⟨by norm_num, by norm_num, le_refl 4,
    fspec_fgn_log_sum (1 / 2) 4 (by norm_num) (by norm_num) (le_refl 4)⟩

end VCBWhittle
